import Mathlib

/-!
Verification of the sensor emulator data adapter (package `dataadapter`).

The Go source is shallowly embedded:

* JSON values decoded by `json.Unmarshal` into `interface{}` become the
  inductive `JNode` (objects are `map[string]interface{}` and are the only
  structure `parseNode` recurses into; scalars and arrays are opaque leaves).
* Go maps `map[string]interface{}` become association lists with
  unique keys maintained by `mapInsert` (Go map assignment semantics:
  the new binding replaces any existing binding of the same key).  Go map
  iteration order is unspecified; the embedding iterates in list order.
* Fallible Go functions returning `(T, error)` become `Except String T`.
* External I/O (HTTP GET/POST, `json.Unmarshal` of raw bytes) is passed in
  as an explicit outcome parameter; the surrounding control flow is
  translated from the source.
-/

/-- A decoded JSON value as produced by `json.Unmarshal` into `interface{}`.
Objects (`obj`) are the keyed structures (`map[string]interface{}`); arrays
and scalars are the leaf payloads that `parseNode` emits unchanged. -/
inductive JNode where
  | null : JNode
  | jbool (b : Bool) : JNode
  | num (n : Int) : JNode
  | str (s : String) : JNode
  | arr (elems : List JNode) : JNode
  | obj (fields : List (String × JNode)) : JNode

/-- A path→value map, as Go's `map[string]interface{}`: an association
list whose keys are kept unique by `mapInsert`. -/
abbrev VisMap := List (String × JNode)

/-- Go map assignment `m[k] = v`: replaces any existing binding of `k`. -/
def mapInsert (m : VisMap) (k : String) (v : JNode) : VisMap :=
  (m.filter (fun p => p.1 ≠ k)) ++ [(k, v)]

/-- Go map read `m[k]` (the `some`/`none` distinction is Go's `ok` flag). -/
def lookupM (m : VisMap) (k : String) : Option JNode :=
  (m.find? (fun p => p.1 = k)).map (·.2)

/-- The keys of a map. -/
def keysOf (m : VisMap) : List String := m.map (·.1)

/-- Perform the assignment `dst[k] = v` for every entry `(k, v)` of `src`
in order, as the Go loop `for k, v := range src { dst[k] = v }`. -/
def insertAll (dst src : VisMap) : VisMap :=
  src.foldl (fun acc p => mapInsert acc p.1 p.2) dst

mutual

/-- `parseNode(prefix, element)` from the source: if `element` is an
object (`map[string]interface{}`), recurse into each field with
`prefix + "." + key` and assign every entry of every recursive result
into the fresh `visData` map, in order (`insertAll [] (flatFields ...)`
replays exactly the assignment sequence `visData[visPath] = visValue` of
the source's nested loops); otherwise emit the single entry
`{prefix: element}`. -/
def parseNode (pfx : String) (element : JNode) : VisMap :=
  match element with
  | .obj fields => insertAll [] (flatFields pfx fields)
  | e => [(pfx, e)]

/-- The sequence of assignments `(visPath, visValue)` performed by the
`for path, value := range m` loop of `parseNode`, in iteration order. -/
def flatFields (pfx : String) (fields : List (String × JNode)) : VisMap :=
  match fields with
  | [] => []
  | (k, v) :: rest => parseNode (pfx ++ "." ++ k) v ++ flatFields pfx rest

end

/-- `insertAll` over an appended source is the two loops in sequence. -/
theorem insertAll_append (dst a b : VisMap) :
    insertAll dst (a ++ b) = insertAll (insertAll dst a) b := by
  simp [insertAll]

/-- Sanity: the object case of `parseNode` is literally the source's outer
loop, folding `insertAll` of each recursive result over the fields of the
object into the initially empty `visData` map. -/
theorem parseNode_obj_loop (pfx : String) (fields : List (String × JNode)) :
    parseNode pfx (.obj fields)
      = fields.foldl
          (fun acc kv => insertAll acc (parseNode (pfx ++ "." ++ kv.1) kv.2)) [] := by
  rw [parseNode]
  suffices h : ∀ (fs : List (String × JNode)) (acc : VisMap),
      insertAll acc (flatFields pfx fs)
        = fs.foldl (fun acc kv => insertAll acc (parseNode (pfx ++ "." ++ kv.1) kv.2)) acc by
    exact h fields []
  intro fs
  induction fs with
  | nil => intro acc; simp [flatFields, insertAll]
  | cons kv rest ih =>
      intro acc
      cases kv with
      | mk k v => simp only [flatFields, List.foldl_cons, insertAll_append, ih]

mutual

/-- The leaf values of a JSON document, in field order: an object's leaves
are the concatenation of its subvalues' leaves; anything else is itself a
single leaf.  (Specification-side notion, used to state the flatten
round-trip property.) -/
def leaves (element : JNode) : List JNode :=
  match element with
  | .obj fields => leavesFields fields
  | e => [e]

/-- Leaves of a field list, in order. -/
def leavesFields (fields : List (String × JNode)) : List JNode :=
  match fields with
  | [] => []
  | (_, v) :: rest => leaves v ++ leavesFields rest

end

mutual

/-- The flat path `parseNode` associates to each leaf, in leaf order
(specification-side companion of `leaves`). -/
def pathsOf (pfx : String) (element : JNode) : List String :=
  match element with
  | .obj fields => pathsFields pfx fields
  | _ => [pfx]

/-- Paths of a field list, in order. -/
def pathsFields (pfx : String) (fields : List (String × JNode)) : List String :=
  match fields with
  | [] => []
  | (k, v) :: rest => pathsOf (pfx ++ "." ++ k) v ++ pathsFields pfx rest

end

-- basic sanity checks on the embedding
example : parseNode "p" (.num 3) = [("p", .num 3)] := rfl
example : parseNode "p" (.obj [("a", .num 1), ("b", .num 2)])
    = [("p.a", .num 1), ("p.b", .num 2)] := rfl
example : parseNode "p" (.obj [("a", .obj [("b", .num 1)])])
    = [("p.a.b", .num 1)] := rfl
example : parseNode "p" (.obj [("a.b", .num 1), ("a", .obj [("b", .num 2)])])
    = [("p.a.b", .num 2)] := rfl
example : leaves (.obj [("a.b", .num 1), ("a", .obj [("b", .num 2)])])
    = [.num 1, .num 2] := rfl

/-! ### Association-list map lemmas -/

/-- Filtering away a key that is not present changes nothing. -/
theorem filter_ne_of_not_mem (m : VisMap) (k : String) (h : k ∉ keysOf m) :
    m.filter (fun p => p.1 ≠ k) = m := by
  induction m with
  | nil => rfl
  | cons x rest ih =>
      simp only [keysOf, List.map_cons, List.mem_cons] at h
      push_neg at h
      simp only [List.filter_cons]
      rw [if_pos (by simpa using Ne.symm (by simpa [keysOf] using h.1))]
      rw [ih (by simp [keysOf, h.2])]

/-- Inserting a fresh key appends the binding. -/
theorem mapInsert_fresh (m : VisMap) (k : String) (v : JNode) (h : k ∉ keysOf m) :
    mapInsert m k v = m ++ [(k, v)] := by
  rw [mapInsert, filter_ne_of_not_mem m k h]

/-- Keys after an insertion: the inserted key, or an old key. -/
theorem mem_keys_mapInsert {q : String} {m : VisMap} {k : String} {v : JNode}
    (h : q ∈ keysOf (mapInsert m k v)) : q = k ∨ q ∈ keysOf m := by
  simp only [mapInsert, keysOf, List.map_append, List.mem_append, List.map_cons,
    List.map_nil, List.mem_cons, List.mem_singleton] at h
  rcases h with h | h
  · right
    rcases List.mem_map.mp h with ⟨p, hp, hq⟩
    exact List.mem_map.mpr ⟨p, List.mem_of_mem_filter hp, hq⟩
  · simp only [List.not_mem_nil, or_false] at h
    exact Or.inl h

/-- `find?` over an appended list, in explicit `match` form. -/
theorem find?_append_match (l1 l2 : List (String × JNode)) (p : String × JNode → Bool) :
    (l1 ++ l2).find? p
      = match l1.find? p with
        | some x => some x
        | none => l2.find? p := by
  induction l1 with
  | nil => simp
  | cons x rest ih =>
      by_cases hx : p x
      · simp [List.find?_cons_of_pos _ hx]
      · rw [List.cons_append, List.find?_cons_of_neg _ hx, List.find?_cons_of_neg _ hx, ih]

/-- Reading after an insertion. -/
theorem lookupM_mapInsert (m : VisMap) (k : String) (v : JNode) (q : String) :
    lookupM (mapInsert m k v) q = if k = q then some v else lookupM m q := by
  unfold lookupM mapInsert
  rw [find?_append_match]
  by_cases hkq : k = q
  · subst hkq
    have hnone : (m.filter (fun p => p.1 ≠ k)).find? (fun p => p.1 = k) = none := by
      rw [List.find?_eq_none]
      intro p hp
      have := List.of_mem_filter hp
      simpa using this
    rw [hnone]
    simp
  · have heq : (m.filter (fun p => p.1 ≠ k)).find? (fun p => p.1 = q)
        = m.find? (fun p => p.1 = q) := by
      induction m with
      | nil => rfl
      | cons x rest ih =>
          simp only [List.filter_cons]
          by_cases hx : x.1 = k
          · rw [if_neg (by simp [hx])]
            rw [List.find?_cons_of_neg _ (by simp [hx, hkq])]
            exact ih
          · rw [if_pos (by simp [hx])]
            by_cases hxq : x.1 = q
            · rw [List.find?_cons_of_pos _ (by simp [hxq]),
                List.find?_cons_of_pos _ (by simp [hxq])]
            · rw [List.find?_cons_of_neg _ (by simp [hxq]),
                List.find?_cons_of_neg _ (by simp [hxq])]
              exact ih
    rw [heq]
    have h2 : [(k, v)].find? (fun p => p.1 = q) = none := by simp [hkq]
    cases hm : m.find? (fun p => p.1 = q) with
    | none => simp [h2, hkq]
    | some x => simp [hkq]

/-- Unique keys are preserved by insertion. -/
theorem nodup_keys_mapInsert (m : VisMap) (k : String) (v : JNode)
    (h : (keysOf m).Nodup) : (keysOf (mapInsert m k v)).Nodup := by
  unfold mapInsert keysOf
  rw [List.map_append]
  apply List.Nodup.append
  · exact (List.Sublist.map _ (List.filter_sublist m)).nodup h
  · simp
  · intro q hq hq2
    simp only [List.map_cons, List.map_nil, List.mem_singleton] at hq2
    rcases List.mem_map.mp hq with ⟨p, hp, hqp⟩
    have := List.of_mem_filter hp
    simp only [decide_eq_true_eq] at this
    exact this (hqp.trans hq2)

/-- Keys of `insertAll` come from either map. -/
theorem mem_keys_insertAll {q : String} (dst src : VisMap)
    (h : q ∈ keysOf (insertAll dst src)) : q ∈ keysOf dst ∨ q ∈ keysOf src := by
  induction src generalizing dst with
  | nil => exact Or.inl h
  | cons x rest ih =>
      have step : insertAll dst (x :: rest) = insertAll (mapInsert dst x.1 x.2) rest := by
        simp [insertAll]
      rw [step] at h
      rcases ih (mapInsert dst x.1 x.2) h with h2 | h2
      · rcases mem_keys_mapInsert h2 with h3 | h3
        · right; simp [keysOf, h3]
        · exact Or.inl h3
      · right; simp [keysOf] at h2 ⊢; exact Or.inr h2

/-- `insertAll` preserves unique keys of the destination. -/
theorem nodup_keys_insertAll (dst src : VisMap) (h : (keysOf dst).Nodup) :
    (keysOf (insertAll dst src)).Nodup := by
  induction src generalizing dst with
  | nil => exact h
  | cons x rest ih =>
      have step : insertAll dst (x :: rest) = insertAll (mapInsert dst x.1 x.2) rest := by
        simp [insertAll]
      rw [step]
      exact ih _ (nodup_keys_mapInsert dst x.1 x.2 h)

/-- When the source keys are fresh and mutually distinct, `insertAll` is
plain concatenation. -/
theorem insertAll_of_disjoint (dst src : VisMap)
    (hnd : (keysOf src).Nodup) (hdisj : ∀ q ∈ keysOf src, q ∉ keysOf dst) :
    insertAll dst src = dst ++ src := by
  induction src generalizing dst with
  | nil => simp [insertAll]
  | cons x rest ih =>
      have step : insertAll dst (x :: rest) = insertAll (mapInsert dst x.1 x.2) rest := by
        simp [insertAll]
      rw [step]
      have hx : x.1 ∉ keysOf dst := hdisj x.1 (by simp [keysOf])
      have hnd2 : (keysOf rest).Nodup := by
        simpa [keysOf] using (List.nodup_cons.mp (by simpa [keysOf] using hnd)).2
      have hdisj2 : ∀ q ∈ keysOf rest, q ∉ keysOf (mapInsert dst x.1 x.2) := by
        intro q hq hmem
        rcases mem_keys_mapInsert hmem with h3 | h3
        · have : x.1 ∉ keysOf rest :=
            (List.nodup_cons.mp (by simpa [keysOf] using hnd)).1
          exact this (h3 ▸ hq)
        · exact hdisj q
            (by rw [show keysOf (x :: rest) = x.1 :: keysOf rest from rfl]
                exact List.mem_cons_of_mem _ hq) h3
      rw [ih _ hnd2 hdisj2, mapInsert_fresh dst x.1 x.2 hx]
      simp

/-- The last binding of `q` in an assignment sequence (the value a Go map
holds after replaying the sequence), if any. -/
def lookLast : VisMap → String → Option JNode
  | [], _ => none
  | (k, v) :: rest, q =>
      match lookLast rest q with
      | some w => some w
      | none => if k = q then some v else none

/-- An absent key reads as `none`. -/
theorem lookupM_eq_none_of_not_mem {m : VisMap} {q : String} (h : q ∉ keysOf m) :
    lookupM m q = none := by
  unfold lookupM
  rw [List.find?_eq_none.mpr]
  · rfl
  · intro p hp
    simp only [decide_eq_true_eq]
    intro hpq
    exact h (List.mem_map.mpr ⟨p, hp, hpq⟩)

/-- Reading after replaying an assignment sequence: the last binding in
the sequence wins, else the destination's binding. -/
theorem lookupM_insertAll (dst src : VisMap) (q : String) :
    lookupM (insertAll dst src) q
      = match lookLast src q with
        | some w => some w
        | none => lookupM dst q := by
  induction src generalizing dst with
  | nil => simp [insertAll, lookLast]
  | cons x rest ih =>
      cases x with
      | mk k v =>
          have step : insertAll dst ((k, v) :: rest) = insertAll (mapInsert dst k v) rest := by
            simp [insertAll]
          rw [step, ih, lookLast]
          cases h : lookLast rest q with
          | some w => simp
          | none =>
              rw [lookupM_mapInsert]
              by_cases hkq : k = q <;> simp [hkq]

/-- On a unique-key map, the last binding is the binding. -/
theorem lookLast_eq_lookupM {m : VisMap} (h : (keysOf m).Nodup) (q : String) :
    lookLast m q = lookupM m q := by
  induction m with
  | nil => simp [lookLast, lookupM]
  | cons x rest ih =>
      cases x with
      | mk k v =>
          have hk : k ∉ keysOf rest := (List.nodup_cons.mp (by simpa [keysOf] using h)).1
          have hnd : (keysOf rest).Nodup := (List.nodup_cons.mp (by simpa [keysOf] using h)).2
          rw [lookLast, ih hnd]
          by_cases hkq : k = q
          · subst hkq
            rw [lookupM_eq_none_of_not_mem hk]
            unfold lookupM
            rw [List.find?_cons_of_pos _ (by simp)]
            simp
          · unfold lookupM
            rw [List.find?_cons_of_neg _ (by simp [hkq])]
            cases hrest : (rest.find? (fun p => p.1 = q)).map (·.2) with
            | none => simp [lookupM, hrest, hkq]
            | some w => simp [lookupM, hrest]

/-- `lookLast` over an appended sequence: later assignments win. -/
theorem lookLast_append (a b : VisMap) (q : String) :
    lookLast (a ++ b) q
      = match lookLast b q with
        | some w => some w
        | none => lookLast a q := by
  induction a with
  | nil => cases h : lookLast b q <;> simp [lookLast, h]
  | cons x rest ih =>
      cases x with
      | mk k v =>
          rw [List.cons_append, lookLast, ih, lookLast]
          cases hb : lookLast b q with
          | some w => simp
          | none => cases hr : lookLast rest q <;> simp

/-- The flat map produced by `parseNode` always has unique keys. -/
theorem parseNode_nodup_keys (pfx : String) (n : JNode) :
    (keysOf (parseNode pfx n)).Nodup := by
  cases n with
  | obj fields => exact nodup_keys_insertAll [] _ (by simp [keysOf])
  | null => simp [parseNode, keysOf]
  | jbool b => simp [parseNode, keysOf]
  | num n => simp [parseNode, keysOf]
  | str s => simp [parseNode, keysOf]
  | arr elems => simp [parseNode, keysOf]

/-- Right-biased union of two partial maps (the right operand, the later
one in field order, overrides the left). -/
def unionR (f g : String → Option JNode) : String → Option JNode :=
  fun q =>
    match g q with
    | some v => some v
    | none => f q

/-- Right-biased union of a list of partial maps, in order. -/
def unionOfMaps : List (String → Option JNode) → String → Option JNode
  | [] => fun _ => none
  | f :: rest => unionR f (unionOfMaps rest)

/-- The map built by the object case of `parseNode` is the right-biased
union of the recursive per-field submaps, in field order. -/
theorem lookLast_flatFields (pfx : String) (fields : List (String × JNode)) (q : String) :
    lookLast (flatFields pfx fields) q
      = unionOfMaps (fields.map fun kv => lookupM (parseNode (pfx ++ "." ++ kv.1) kv.2)) q := by
  induction fields with
  | nil => simp [flatFields, lookLast, unionOfMaps]
  | cons kv rest ih =>
      cases kv with
      | mk k v =>
          rw [show flatFields pfx ((k, v) :: rest)
                = parseNode (pfx ++ "." ++ k) v ++ flatFields pfx rest from rfl]
          rw [lookLast_append, ih, List.map_cons]
          rw [show ∀ f fs, unionOfMaps (f :: fs) = unionR f (unionOfMaps fs) from fun _ _ => rfl]
          rw [lookLast_eq_lookupM (parseNode_nodup_keys _ _)]
          rfl

/-- C4: for every prefix `p` and node `n`, `parseNode` satisfies the
recursion of the spec: on an object it is the union over the `(key,
subvalue)` pairs of `parseNode(p + "." + key, subvalue)` (later fields
overriding earlier ones, as Go map assignment does), and on anything
else (scalar or array) it is exactly the single-entry map `{p: n}`. -/
theorem parseNode_obj_union_leaf_single (pfx : String) :
    (∀ (fields : List (String × JNode)) (q : String),
        lookupM (parseNode pfx (.obj fields)) q
          = unionOfMaps (fields.map fun kv => lookupM (parseNode (pfx ++ "." ++ kv.1) kv.2)) q)
  ∧ ∀ element : JNode, (∀ fields, element ≠ .obj fields) →
      parseNode pfx element = [(pfx, element)] := by
  constructor
  · intro fields q
    rw [show parseNode pfx (.obj fields) = insertAll [] (flatFields pfx fields) from rfl]
    rw [lookupM_insertAll, lookLast_flatFields]
    cases h : unionOfMaps (fields.map fun kv => lookupM (parseNode (pfx ++ "." ++ kv.1) kv.2)) q
      <;> simp [lookupM]
  · intro element h
    cases element <;> first | rfl | exact absurd rfl (h _)

/-- Witness for C4 at a concrete array leaf. -/
theorem parseNode_obj_union_leaf_single_witness :
    parseNode "p" (.arr [.num 7]) = [("p", .arr [.num 7])] :=
  (parseNode_obj_union_leaf_single "p").2 (.arr [.num 7]) (fun _ h => JNode.noConfusion h)

/-! ### String facts used for path reasoning -/

/-- `s` contains no `'.'` separator (so joining with `"."` is invertible). -/
def dotFree (s : String) : Prop := '.' ∉ s.data

instance (s : String) : Decidable (dotFree s) :=
  inferInstanceAs (Decidable ('.' ∉ s.data))

/-- Left-cancellation of string append. -/
theorem str_append_left_cancel {a b c : String} (h : a ++ b = a ++ c) : b = c := by
  apply String.ext
  have hd := congrArg String.data h
  rw [String.data_append, String.data_append] at hd
  exact List.append_cancel_left hd

/-- A dot-free string is never of the form `b ++ "." ++ c`. -/
theorem dotFree_no_split {a b c : String} (ha : dotFree a) : a ≠ b ++ "." ++ c := by
  intro h
  apply ha
  have hd := congrArg String.data h
  rw [String.data_append, String.data_append] at hd
  rw [hd]
  refine List.mem_append.mpr (Or.inl ?_)
  exact List.mem_append.mpr (Or.inr (by simp [String.data]))

/-- Joining dot-free segments with `"."` is injective (list form). -/
theorem dot_split_inj_list (la : List Char) :
    ∀ lb lx ly : List Char, '.' ∉ la → '.' ∉ lb →
      la ++ '.' :: lx = lb ++ '.' :: ly → la = lb ∧ lx = ly := by
  induction la with
  | nil =>
      intro lb lx ly _ hb h
      cases lb with
      | nil => simpa using h
      | cons d lb2 =>
          simp only [List.nil_append, List.cons_append, List.cons.injEq] at h
          exact absurd (h.1 ▸ List.mem_cons_self d lb2) (h.1 ▸ hb)
  | cons c la2 ih =>
      intro lb lx ly ha hb h
      cases lb with
      | nil =>
          simp only [List.nil_append, List.cons_append, List.cons.injEq] at h
          exact absurd (h.1 ▸ List.mem_cons_self c la2) (fun hma => ha (h.1 ▸ hma))
      | cons d lb2 =>
          simp only [List.cons_append, List.cons.injEq] at h
          have ha2 : '.' ∉ la2 := fun hm => ha (List.mem_cons_of_mem _ hm)
          have hb2 : '.' ∉ lb2 := fun hm => hb (List.mem_cons_of_mem _ hm)
          rcases ih lb2 lx ly ha2 hb2 h.2 with ⟨h1, h2⟩
          exact ⟨by rw [h.1, h1], h2⟩

/-- Joining dot-free segments with `"."` is injective. -/
theorem dot_split_inj {a b x y : String} (ha : dotFree a) (hb : dotFree b)
    (h : a ++ "." ++ x = b ++ "." ++ y) : a = b ∧ x = y := by
  have hd := congrArg String.data h
  simp only [String.data_append] at hd
  simp only [List.append_assoc, List.singleton_append] at hd
  rcases dot_split_inj_list a.data b.data x.data y.data ha hb hd with ⟨h1, h2⟩
  exact ⟨String.ext h1, String.ext h2⟩

/-! ### A recursion principle following the shape of `parseNode` -/

/-- Induction on `JNode` that recurses exactly where `parseNode` does:
into the subvalues of an object; every other node is a leaf. -/
theorem parseInd {P : JNode → Prop}
    (leafCase : ∀ n, (∀ fields, n ≠ JNode.obj fields) → P n)
    (objCase : ∀ fields, (∀ kv ∈ fields, P kv.2) → P (JNode.obj fields)) :
    ∀ n, P n := fun n =>
  match n with
  | .obj fields => objCase fields (fun kv hkv => parseInd leafCase objCase kv.2)
  | .null => leafCase .null (fun _ h => JNode.noConfusion h)
  | .jbool b => leafCase (.jbool b) (fun _ h => JNode.noConfusion h)
  | .num q => leafCase (.num q) (fun _ h => JNode.noConfusion h)
  | .str s => leafCase (.str s) (fun _ h => JNode.noConfusion h)
  | .arr elems => leafCase (.arr elems) (fun _ h => JNode.noConfusion h)
termination_by n => sizeOf n
decreasing_by
  obtain ⟨k1, v1⟩ := kv
  have h1 := List.sizeOf_lt_of_mem hkv
  simp only [Prod.mk.sizeOf_spec] at h1
  simp only [JNode.obj.sizeOf_spec]
  omega

/-! ### Shape of the paths produced by `parseNode` -/

/-- Every path of a field list extends the prefix by a dot (helper,
pointwise hypotheses supplied by the outer induction). -/
theorem pathsFields_shape_aux (pfx : String) (fs : List (String × JNode))
    (hP : ∀ kv ∈ fs, ∀ (pfx2 q : String), q ∈ pathsOf pfx2 kv.2 →
        q = pfx2 ∨ ∃ t, q = pfx2 ++ "." ++ t) :
    ∀ q ∈ pathsFields pfx fs, ∃ t, q = pfx ++ "." ++ t := by
  induction fs with
  | nil => simp [pathsFields]
  | cons kv rest ihf =>
      obtain ⟨k, v⟩ := kv
      intro q hq
      rw [show pathsFields pfx ((k, v) :: rest)
            = pathsOf (pfx ++ "." ++ k) v ++ pathsFields pfx rest from rfl] at hq
      rcases List.mem_append.mp hq with h | h
      · rcases hP (k, v) (by simp) (pfx ++ "." ++ k) q h with h2 | ⟨t, h2⟩
        · exact ⟨k, h2⟩
        · exact ⟨k ++ "." ++ t, by rw [h2]; simp [String.append_assoc]⟩
      · exact ihf (fun kv2 hkv2 => hP kv2 (List.mem_cons_of_mem _ hkv2)) q h

/-- Every path emitted under prefix `p` is `p` itself or extends `p`
by a dot. -/
theorem pathsOf_shape (n : JNode) : ∀ (pfx q : String), q ∈ pathsOf pfx n →
    q = pfx ∨ ∃ t, q = pfx ++ "." ++ t := by
  induction n using parseInd with
  | leafCase n h =>
      intro pfx q hq
      cases n with
      | obj fields => exact absurd rfl (h fields)
      | null => simp only [pathsOf, List.mem_singleton] at hq; exact Or.inl hq
      | jbool b => simp only [pathsOf, List.mem_singleton] at hq; exact Or.inl hq
      | num m => simp only [pathsOf, List.mem_singleton] at hq; exact Or.inl hq
      | str s => simp only [pathsOf, List.mem_singleton] at hq; exact Or.inl hq
      | arr elems => simp only [pathsOf, List.mem_singleton] at hq; exact Or.inl hq
  | objCase fields ih =>
      intro pfx q hq
      rw [show pathsOf pfx (.obj fields) = pathsFields pfx fields from rfl] at hq
      rcases pathsFields_shape_aux pfx fields ih q hq with ⟨t, ht⟩
      exact Or.inr ⟨t, ht⟩

/-- Keys of the assignment sequence of a field list are among its paths
(helper, pointwise hypotheses supplied by the outer induction). -/
theorem keys_flatFields_sub_aux (pfx : String) (fs : List (String × JNode))
    (hP : ∀ kv ∈ fs, ∀ (pfx2 q : String), q ∈ keysOf (parseNode pfx2 kv.2) →
        q ∈ pathsOf pfx2 kv.2) :
    ∀ q ∈ keysOf (flatFields pfx fs), q ∈ pathsFields pfx fs := by
  induction fs with
  | nil => simp [flatFields, keysOf, pathsFields]
  | cons kv rest ihf =>
      obtain ⟨k, v⟩ := kv
      intro q hq
      rw [show flatFields pfx ((k, v) :: rest)
            = parseNode (pfx ++ "." ++ k) v ++ flatFields pfx rest from rfl] at hq
      rw [show pathsFields pfx ((k, v) :: rest)
            = pathsOf (pfx ++ "." ++ k) v ++ pathsFields pfx rest from rfl]
      rw [keysOf, List.map_append] at hq
      rcases List.mem_append.mp hq with h | h
      · exact List.mem_append.mpr (Or.inl (hP (k, v) (by simp) _ q h))
      · exact List.mem_append.mpr
          (Or.inr (ihf (fun kv2 hkv2 => hP kv2 (List.mem_cons_of_mem _ hkv2)) q h))

/-- Every key of the flat map produced by `parseNode` is one of the
leaf paths. -/
theorem keys_parseNode_sub (n : JNode) : ∀ (pfx q : String),
    q ∈ keysOf (parseNode pfx n) → q ∈ pathsOf pfx n := by
  induction n using parseInd with
  | leafCase n h =>
      intro pfx q hq
      cases n with
      | obj fields => exact absurd rfl (h fields)
      | null => simpa [parseNode, keysOf, pathsOf] using hq
      | jbool b => simpa [parseNode, keysOf, pathsOf] using hq
      | num m => simpa [parseNode, keysOf, pathsOf] using hq
      | str s => simpa [parseNode, keysOf, pathsOf] using hq
      | arr elems => simpa [parseNode, keysOf, pathsOf] using hq
  | objCase fields ih =>
      intro pfx q hq
      rw [show parseNode pfx (.obj fields) = insertAll [] (flatFields pfx fields) from rfl] at hq
      rcases mem_keys_insertAll [] (flatFields pfx fields) hq with h | h
      · simp [keysOf] at h
      · exact keys_flatFields_sub_aux pfx fields ih q h

/-! ### Well-formed documents: unique, dot-free object keys -/

mutual

/-- A document is well formed when every object has unique keys (as a Go
map guarantees) and no key contains the `"."` separator. -/
def nodeWF : JNode → Bool
  | .obj fields =>
      decide ((fields.map (fun kv => kv.1)).Nodup)
        && fields.all (fun kv => decide (dotFree kv.1))
        && fieldsWF fields
  | _ => true

/-- All subvalues of a field list are well formed. -/
def fieldsWF : List (String × JNode) → Bool
  | [] => true
  | (_, v) :: rest => nodeWF v && fieldsWF rest

end

/-- `fieldsWF` is pointwise well-formedness. -/
theorem fieldsWF_iff (fs : List (String × JNode)) :
    fieldsWF fs = true ↔ ∀ kv ∈ fs, nodeWF kv.2 = true := by
  induction fs with
  | nil => simp [fieldsWF]
  | cons kv rest ih =>
      obtain ⟨k, v⟩ := kv
      rw [show fieldsWF ((k, v) :: rest) = (nodeWF v && fieldsWF rest) from rfl]
      rw [Bool.and_eq_true, ih]
      constructor
      · rintro ⟨h1, h2⟩ kv2 hkv2
        rcases List.mem_cons.mp hkv2 with h3 | h3
        · rw [h3]; exact h1
        · exact h2 kv2 h3
      · intro h
        exact ⟨h (k, v) (by simp), fun kv2 hkv2 => h kv2 (List.mem_cons_of_mem _ hkv2)⟩

/-- A path of the field list belongs to the chunk of some field. -/
theorem mem_pathsFields {q pfx : String} {fs : List (String × JNode)}
    (h : q ∈ pathsFields pfx fs) :
    ∃ kv ∈ fs, q ∈ pathsOf (pfx ++ "." ++ kv.1) kv.2 := by
  induction fs with
  | nil => simp [pathsFields] at h
  | cons kv rest ih =>
      obtain ⟨k, v⟩ := kv
      rw [show pathsFields pfx ((k, v) :: rest)
            = pathsOf (pfx ++ "." ++ k) v ++ pathsFields pfx rest from rfl] at h
      rcases List.mem_append.mp h with h2 | h2
      · exact ⟨(k, v), by simp, h2⟩
      · rcases ih h2 with ⟨kv2, hkv2, hq2⟩
        exact ⟨kv2, List.mem_cons_of_mem _ hkv2, hq2⟩

/-- Chunks of two distinct dot-free field keys cannot share a path. -/
theorem chunks_disjoint {pfx k k2 q : String} {v v2 : JNode}
    (hk : dotFree k) (hk2 : dotFree k2) (hne : k ≠ k2)
    (h1 : q ∈ pathsOf (pfx ++ "." ++ k) v) (h2 : q ∈ pathsOf (pfx ++ "." ++ k2) v2) :
    False := by
  have s1 := pathsOf_shape v (pfx ++ "." ++ k) q h1
  have s2 := pathsOf_shape v2 (pfx ++ "." ++ k2) q h2
  rcases s1 with e1 | ⟨t1, e1⟩ <;> rcases s2 with e2 | ⟨t2, e2⟩
  · apply hne
    apply str_append_left_cancel (a := pfx ++ ".")
    simpa only [String.append_assoc] using e1.symm.trans e2
  · have hsplit : k = k2 ++ "." ++ t2 := by
      apply str_append_left_cancel (a := pfx ++ ".")
      simpa only [String.append_assoc] using e1.symm.trans e2
    exact dotFree_no_split hk hsplit
  · have hsplit : k2 = k ++ "." ++ t1 := by
      apply str_append_left_cancel (a := pfx ++ ".")
      simpa only [String.append_assoc] using e2.symm.trans e1
    exact dotFree_no_split hk2 hsplit
  · have heq : k ++ "." ++ t1 = k2 ++ "." ++ t2 := by
      apply str_append_left_cancel (a := pfx ++ ".")
      simpa only [String.append_assoc] using e1.symm.trans e2
    exact hne (dot_split_inj hk hk2 heq).1

/-- The values of a map, in order. -/
def valsOf (m : VisMap) : List JNode := m.map (·.2)

/-- Keys and values of the assignment sequence of a field list (helper,
pointwise hypotheses supplied by the outer induction). -/
theorem flat_lossless_aux (pfx : String) (fs : List (String × JNode))
    (hP : ∀ kv ∈ fs,
        keysOf (parseNode (pfx ++ "." ++ kv.1) kv.2) = pathsOf (pfx ++ "." ++ kv.1) kv.2
      ∧ valsOf (parseNode (pfx ++ "." ++ kv.1) kv.2) = leaves kv.2) :
    keysOf (flatFields pfx fs) = pathsFields pfx fs
  ∧ valsOf (flatFields pfx fs) = leavesFields fs := by
  induction fs with
  | nil => exact ⟨rfl, rfl⟩
  | cons kv rest ihf =>
      obtain ⟨k, v⟩ := kv
      have hrest := ihf (fun kv2 hkv2 => hP kv2 (List.mem_cons_of_mem _ hkv2))
      have hhead := hP (k, v) (by simp)
      constructor
      · rw [show flatFields pfx ((k, v) :: rest)
              = parseNode (pfx ++ "." ++ k) v ++ flatFields pfx rest from rfl]
        rw [show pathsFields pfx ((k, v) :: rest)
              = pathsOf (pfx ++ "." ++ k) v ++ pathsFields pfx rest from rfl]
        rw [keysOf, List.map_append]
        rw [show (parseNode (pfx ++ "." ++ k) v).map (·.1)
              = keysOf (parseNode (pfx ++ "." ++ k) v) from rfl, hhead.1]
        rw [show (flatFields pfx rest).map (·.1) = keysOf (flatFields pfx rest) from rfl,
          hrest.1]
      · rw [show flatFields pfx ((k, v) :: rest)
              = parseNode (pfx ++ "." ++ k) v ++ flatFields pfx rest from rfl]
        rw [show leavesFields ((k, v) :: rest) = leaves v ++ leavesFields rest from rfl]
        rw [valsOf, List.map_append]
        rw [show (parseNode (pfx ++ "." ++ k) v).map (·.2)
              = valsOf (parseNode (pfx ++ "." ++ k) v) from rfl, hhead.2]
        rw [show (flatFields pfx rest).map (·.2) = valsOf (flatFields pfx rest) from rfl,
          hrest.2]

/-- With unique dot-free keys the per-field path chunks are disjoint, so
the paths of a field list are distinct (helper). -/
theorem pathsFields_nodup_aux (pfx : String) (fs : List (String × JNode))
    (hnd : (fs.map (fun kv => kv.1)).Nodup)
    (hdf : ∀ kv ∈ fs, dotFree kv.1)
    (hPnd : ∀ kv ∈ fs, (pathsOf (pfx ++ "." ++ kv.1) kv.2).Nodup) :
    (pathsFields pfx fs).Nodup := by
  induction fs with
  | nil => simp [pathsFields]
  | cons kv rest ihf =>
      obtain ⟨k, v⟩ := kv
      rw [show pathsFields pfx ((k, v) :: rest)
            = pathsOf (pfx ++ "." ++ k) v ++ pathsFields pfx rest from rfl]
      have hk : k ∉ rest.map (fun kv => kv.1) :=
        (List.nodup_cons.mp (by simpa using hnd)).1
      apply List.Nodup.append
      · exact hPnd (k, v) (by simp)
      · exact ihf (List.nodup_cons.mp (by simpa using hnd)).2
          (fun kv2 hkv2 => hdf kv2 (List.mem_cons_of_mem _ hkv2))
          (fun kv2 hkv2 => hPnd kv2 (List.mem_cons_of_mem _ hkv2))
      · intro q hq1 hq2
        rcases mem_pathsFields hq2 with ⟨kv2, hkv2, hq3⟩
        have hne : k ≠ kv2.1 := fun he =>
          hk (he ▸ List.mem_map.mpr ⟨kv2, hkv2, rfl⟩)
        exact chunks_disjoint (hdf (k, v) (by simp)) (hdf kv2 (List.mem_cons_of_mem _ hkv2))
          hne hq1 hq3

/-- On a well-formed document, `parseNode` emits exactly one entry per
leaf: the keys are the leaf paths (all distinct) and the values are the
leaves, in order. -/
theorem parseNode_lossless (n : JNode) : nodeWF n = true → ∀ pfx : String,
    keysOf (parseNode pfx n) = pathsOf pfx n
  ∧ valsOf (parseNode pfx n) = leaves n
  ∧ (pathsOf pfx n).Nodup := by
  induction n using parseInd with
  | leafCase n h =>
      intro _ pfx
      cases n with
      | obj fields => exact absurd rfl (h fields)
      | null => exact ⟨rfl, rfl, by simp [pathsOf]⟩
      | jbool b => exact ⟨rfl, rfl, by simp [pathsOf]⟩
      | num m => exact ⟨rfl, rfl, by simp [pathsOf]⟩
      | str s => exact ⟨rfl, rfl, by simp [pathsOf]⟩
      | arr elems => exact ⟨rfl, rfl, by simp [pathsOf]⟩
  | objCase fields ih =>
      intro hw pfx
      rw [show nodeWF (.obj fields)
            = (decide ((fields.map (fun kv => kv.1)).Nodup)
                && fields.all (fun kv => decide (dotFree kv.1))
                && fieldsWF fields) from rfl] at hw
      rw [Bool.and_eq_true, Bool.and_eq_true] at hw
      have hnd : (fields.map (fun kv => kv.1)).Nodup := of_decide_eq_true hw.1.1
      have hdf : ∀ kv ∈ fields, dotFree kv.1 := fun kv hkv =>
        of_decide_eq_true (List.all_eq_true.mp hw.1.2 kv hkv)
      have hfw : ∀ kv ∈ fields, nodeWF kv.2 = true := (fieldsWF_iff fields).mp hw.2
      have hP : ∀ kv ∈ fields,
          keysOf (parseNode (pfx ++ "." ++ kv.1) kv.2) = pathsOf (pfx ++ "." ++ kv.1) kv.2
        ∧ valsOf (parseNode (pfx ++ "." ++ kv.1) kv.2) = leaves kv.2 := by
        intro kv hkv
        have := ih kv hkv (hfw kv hkv) (pfx ++ "." ++ kv.1)
        exact ⟨this.1, this.2.1⟩
      have hflat := flat_lossless_aux pfx fields hP
      have hpanodup : (pathsFields pfx fields).Nodup :=
        pathsFields_nodup_aux pfx fields hnd hdf
          (fun kv hkv => (ih kv hkv (hfw kv hkv) (pfx ++ "." ++ kv.1)).2.2)
      have hkeysnd : (keysOf (flatFields pfx fields)).Nodup := by
        rw [hflat.1]; exact hpanodup
      have hconcat : insertAll [] (flatFields pfx fields) = flatFields pfx fields := by
        have := insertAll_of_disjoint [] (flatFields pfx fields) hkeysnd
          (fun q _ hq => by simp [keysOf] at hq)
        simpa using this
      refine ⟨?_, ?_, ?_⟩
      · rw [show parseNode pfx (.obj fields)
              = insertAll [] (flatFields pfx fields) from rfl, hconcat]
        rw [show pathsOf pfx (.obj fields) = pathsFields pfx fields from rfl]
        exact hflat.1
      · rw [show parseNode pfx (.obj fields)
              = insertAll [] (flatFields pfx fields) from rfl, hconcat]
        rw [show leaves (.obj fields) = leavesFields fields from rfl]
        exact hflat.2
      · rw [show pathsOf pfx (.obj fields) = pathsFields pfx fields from rfl]
        exact hpanodup

/-- `flatFields` distributes over appended field lists. -/
theorem flatFields_append (pfx : String) (a b : List (String × JNode)) :
    flatFields pfx (a ++ b) = flatFields pfx a ++ flatFields pfx b := by
  induction a with
  | nil => simp [flatFields]
  | cons kv rest ih =>
      obtain ⟨k, v⟩ := kv
      rw [List.cons_append]
      rw [show flatFields pfx ((k, v) :: (rest ++ b))
            = parseNode (pfx ++ "." ++ k) v ++ flatFields pfx (rest ++ b) from rfl]
      rw [show flatFields pfx ((k, v) :: rest)
            = parseNode (pfx ++ "." ++ k) v ++ flatFields pfx rest from rfl]
      rw [ih, List.append_assoc]

/-- C3 (counterexample): on the document `{"a.b": 1, "a": {"b": 2}}` —
whose keys contain the `"."` separator — the two distinct leaves collide
on the flat path `"p.a.b"`, the later assignment overwrites the earlier
one, and the leaf value `1` is dropped: the flat map has one entry while
the document has two leaves. -/
theorem flatten_drops_leaf_on_dotted_key :
    parseNode "p" (.obj [("a.b", .num 1), ("a", .obj [("b", .num 2)])])
        = [("p.a.b", .num 2)]
  ∧ leaves (.obj [("a.b", .num 1), ("a", .obj [("b", .num 2)])]) = [.num 1, .num 2]
  ∧ (parseNode "p" (.obj [("a.b", .num 1), ("a", .obj [("b", .num 2)])])).length
      ≠ (leaves (.obj [("a.b", .num 1), ("a", .obj [("b", .num 2)])])).length :=
  ⟨rfl, rfl, by decide⟩

/-- C3 (amended): for every prefix and every document whose object keys
are unique and contain no `"."`, the flat map produced by `parseNode`
reconstructs the document's leaves exactly: its keys are precisely the
leaf paths, all distinct, and its values are precisely the leaves, in
order — no leaf value is dropped and none is duplicated. -/
theorem flatten_lossless_of_dotFree (pfx : String) (n : JNode) (h : nodeWF n = true) :
    keysOf (parseNode pfx n) = pathsOf pfx n
  ∧ valsOf (parseNode pfx n) = leaves n
  ∧ (keysOf (parseNode pfx n)).Nodup := by
  rcases parseNode_lossless n h pfx with ⟨h1, h2, h3⟩
  exact ⟨h1, h2, h1 ▸ h3⟩

/-- Witness for the amended C3 on a concrete two-level document. -/
theorem flatten_lossless_of_dotFree_witness :
    nodeWF (.obj [("speed", .num 5), ("geo", .obj [("lat", .num 1), ("lon", .num 2)])])
        = true
  ∧ keysOf (parseNode "Signal.Emulator"
        (.obj [("speed", .num 5), ("geo", .obj [("lat", .num 1), ("lon", .num 2)])]))
      = ["Signal.Emulator.speed", "Signal.Emulator.geo.lat", "Signal.Emulator.geo.lon"] :=
  ⟨by decide,
   (flatten_lossless_of_dotFree "Signal.Emulator"
      (.obj [("speed", .num 5), ("geo", .obj [("lat", .num 1), ("lon", .num 2)])])
      (by decide)).1.trans rfl⟩

/-- C10: a subtree whose value is an empty object contributes no path at
all to the flattened output: `parseNode` maps an empty object to the
empty map, and appending an empty-object field to any object leaves the
flattened output unchanged. -/
theorem parseNode_empty_obj :
    (∀ pfx : String, parseNode pfx (.obj []) = [])
  ∧ (∀ (pfx k : String) (fs : List (String × JNode)),
      parseNode pfx (.obj (fs ++ [(k, .obj [])])) = parseNode pfx (.obj fs)) := by
  constructor
  · intro pfx; rfl
  · intro pfx k fs
    rw [show parseNode pfx (.obj (fs ++ [(k, .obj [])]))
          = insertAll [] (flatFields pfx (fs ++ [(k, .obj [])])) from rfl]
    rw [show parseNode pfx (.obj fs) = insertAll [] (flatFields pfx fs) from rfl]
    rw [flatFields_append]
    rw [show flatFields pfx [(k, .obj [])]
          = parseNode (pfx ++ "." ++ k) (.obj []) ++ flatFields pfx [] from rfl]
    rw [show parseNode (pfx ++ "." ++ k) (.obj []) = ([] : VisMap) from rfl]
    rw [show flatFields pfx [] = ([] : VisMap) from rfl]
    simp

/-- Witness for C10 at a concrete input. -/
theorem parseNode_empty_obj_witness :
    parseNode "p" (.obj [("a", .num 1), ("e", .obj [])]) = parseNode "p" (.obj [("a", .num 1)]) :=
  parseNode_empty_obj.2 "p" "e" [("a", .num 1)]

/-- `convertDataToVisFormat` from the source: unmarshal the fetched body
(the unmarshal outcome is passed in, JSON byte parsing being external to
the embedding) and on success flatten it under the fixed namespace root
`"Signal.Emulator"`. -/
def convertDataToVisFormat (unmarshalRes : Except String JNode) : Except String VisMap :=
  match unmarshalRes with
  | .error e => .error e
  | .ok data => .ok (parseNode "Signal.Emulator" data)

/-- C9: every key in the map returned by `parseNode(p, n)` either equals
`p` or extends `p` by a dot; in particular every key produced by
`convertDataToVisFormat` starts with `"Signal.Emulator"`. -/
theorem parseNode_keys_under_root :
    (∀ (pfx : String) (n : JNode) (q : String),
        q ∈ keysOf (parseNode pfx n) → q = pfx ∨ ∃ t, q = pfx ++ "." ++ t)
  ∧ (∀ (res : Except String JNode) (m : VisMap) (q : String),
        convertDataToVisFormat res = .ok m → q ∈ keysOf m →
          ∃ t, q = "Signal.Emulator" ++ t) := by
  constructor
  · intro pfx n q hq
    exact pathsOf_shape n pfx q (keys_parseNode_sub n pfx q hq)
  · intro res m q hres hq
    cases res with
    | error e => exact absurd hres (by simp [convertDataToVisFormat])
    | ok data =>
        have hm : m = parseNode "Signal.Emulator" data := by
          have : Except.ok (parseNode "Signal.Emulator" data) = Except.ok m := hres
          exact (Except.ok.inj this).symm
        rw [hm] at hq
        rcases pathsOf_shape data "Signal.Emulator" q
            (keys_parseNode_sub data "Signal.Emulator" q hq) with h | ⟨t, ht⟩
        · exact ⟨"", by rw [h, String.append_empty]⟩
        · exact ⟨"." ++ t, by rw [ht, String.append_assoc]⟩

/-- Witness for C9 at a concrete fetched document. -/
theorem parseNode_keys_under_root_witness :
    ∃ t, "Signal.Emulator.speed" = "Signal.Emulator" ++ t :=
  parseNode_keys_under_root.2 (.ok (.obj [("speed", .num 5)]))
    (parseNode "Signal.Emulator" (.obj [("speed", .num 5)])) "Signal.Emulator.speed"
    rfl (by decide)

/-! ### String prefix operations (Go `strings.HasPrefix` / `TrimPrefix`) -/

/-- Go `strings.HasPrefix s pre`. -/
def strHasPref (s pre : String) : Bool := decide (s.data.take pre.length = pre.data)

/-- Go `strings.TrimPrefix s pre`: drops `pre` when present, else `s`. -/
def strTrimPref (s pre : String) : String :=
  if strHasPref s pre then String.mk (s.data.drop pre.length) else s

/-- Prefix test characterized by append. -/
theorem strHasPref_iff (s pre : String) : strHasPref s pre = true ↔ ∃ t, s = pre ++ t := by
  unfold strHasPref
  rw [decide_eq_true_iff]
  constructor
  · intro h
    refine ⟨String.mk (s.data.drop pre.length), ?_⟩
    apply String.ext
    rw [String.data_append]
    rw [show (String.mk (s.data.drop pre.length)).data = s.data.drop pre.length from rfl]
    rw [← h]
    exact (List.take_append_drop pre.length s.data).symm
  · rintro ⟨t, rfl⟩
    rw [String.data_append]
    rw [show String.length pre = pre.data.length from rfl]
    exact List.take_left pre.data t.data

/-- Trimming a present prefix recovers the suffix. -/
theorem strTrimPref_append (pre t : String) : strTrimPref (pre ++ t) pre = t := by
  have h : strHasPref (pre ++ t) pre = true := (strHasPref_iff _ _).mpr ⟨t, rfl⟩
  rw [strTrimPref, if_pos h]
  apply String.ext
  rw [show (String.mk ((pre ++ t).data.drop pre.length)).data
        = (pre ++ t).data.drop pre.length from rfl]
  rw [String.data_append, show String.length pre = pre.data.length from rfl]
  exact List.drop_left pre.data t.data

/-- A string carrying the prefix is the prefix plus its trimmed suffix. -/
theorem strip_recover {s pre : String} (h : strHasPref s pre = true) :
    s = pre ++ strTrimPref s pre := by
  rcases (strHasPref_iff s pre).mp h with ⟨t, rfl⟩
  rw [strTrimPref_append]

/-! ### The sensor emulator adapter -/

/-- The outbound path root required by `convertVisFormatToData`. -/
def attrPref : String := "Attribute.Emulator."

/-- The `for path, value := range visData` loop of `convertVisFormatToData`:
a key carrying the required root is stripped and assigned into `sendData`
(the accumulator); any other key aborts the whole batch with the source's
`"Path %s does not exist"` error. -/
def convertLoop : VisMap → VisMap → Except String VisMap
  | [], acc => .ok acc
  | (path, v) :: rest, acc =>
      if strHasPref path attrPref then
        convertLoop rest (mapInsert acc (strTrimPref path attrPref) v)
      else
        .error ("Path " ++ path ++ " does not exist")

/-- `convertVisFormatToData` from the source, up to JSON serialization:
it returns the `sendData` map that the source then hands to
`json.Marshal` (serializing a string-keyed map of decoded JSON values
cannot fail and is not modelled). -/
def convertVisFormatToData (visData : VisMap) : Except String VisMap :=
  convertLoop visData []

/-- Outcome of `http.Post`: the fields of Go's `*http.Response` that the
source reads (`StatusCode`, and the `Status` text line). -/
structure HttpResp where
  statusCode : Nat
  status : String

/-- Modelled from the spec: `setData` of the shared base adapter, whose
source file is not part of this repository snapshot.  Per the
specification it is validate-all-then-apply: an unknown path fails the
whole call with a path-not-found error naming that path and no entry is
mutated; otherwise every entry is overwritten.  (The changed-path diff
set it reports to the notifier is not needed by any claim and is not
modelled.) -/
def baseSetData (st updates : VisMap) : Except String VisMap :=
  match updates.find? (fun kv => (lookupM st kv.1).isNone) with
  | some kv => .error ("path " ++ kv.1 ++ " not found")
  | none => .ok (insertAll st updates)

/-- `SetData` of the sensor emulator adapter.  The result is the store
after the call together with the returned error (`none` = success).  The
outcome of `http.Post` is passed in (`.error e` a transport error, `.ok
r` a received response); `url.Parse("attributes/")` on that constant
literal cannot fail, and the computed address does not affect control
flow, so neither is modelled. -/
def sensorSetData (st : VisMap) (postRes : Except String HttpResp) (data : VisMap) :
    VisMap × Option String :=
  match convertVisFormatToData data with
  | .error e => (st, some e)
  | .ok _sendData =>
      match postRes with
      | .error e => (st, some e)
      | .ok res =>
          if res.statusCode ≠ 201 then (st, some res.status)
          else
            match baseSetData st data with
            | .error e => (st, some e)
            | .ok st2 => (st2, none)

/-- `IsPathPublic` of the sensor emulator adapter: the source body (after
taking and releasing the base adapter's lock, which a sequential model
does not represent) is `return true, nil`, with a TODO to return `false`
once authorization is integrated. -/
def isPathPublic (_path : String) : Bool × Option String := (true, none)

/-- Decoded content of the adapter's JSON configuration document: which
of the two recognized fields are present.  `json.Unmarshal` leaves an
absent field at its preset value: the Go zero value `""` for `SensorURL`
and the preset `defaultUpdatePeriod` for `UpdatePeriod`. -/
structure ConfigFields where
  sensorURL : Option String
  updatePeriod : Option Nat

/-- A parsed `url.URL`; its content never influences control flow here. -/
structure GoURL where
  raw : String

/-- `defaultUpdatePeriod` from the source (milliseconds: `processData`
multiplies it by `time.Millisecond`). -/
def defaultUpdatePeriod : Nat := 500

/-- The adapter state built by construction.  `sensorURL` is `none`
exactly when `url.Parse` failed (Go's `nil` result pointer). -/
structure SensorEmulatorAdapter where
  sensorURL : Option GoURL
  updatePeriod : Nat
  store : VisMap

/-- The seven attribute paths registered at construction with empty
(`nil`-valued) entries. -/
def attrNames : List String :=
  ["Attribute.Emulator.rectangle_long0", "Attribute.Emulator.rectangle_lat0",
   "Attribute.Emulator.rectangle_long1", "Attribute.Emulator.rectangle_lat1",
   "Attribute.Emulator.to_rectangle", "Attribute.Emulator.stop",
   "Attribute.Emulator.tire_break"]

/-- `NewSensorEmulatorAdapter` from the source, with the external
outcomes passed in: `unmarshalRes` for `json.Unmarshal(configJSON)`,
`urlParseRes` for `url.Parse(cfg.SensorURL)` and `fetchRes` for the
initial `getDataFromSensorEmulator()` (HTTP GET plus
`convertDataToVisFormat`).  `newBaseAdapter()` allocates an empty store
and cannot fail.  The source assigns `adapter.sensorURL, err =
url.Parse(cfg.SensorURL)` and then overwrites `err` with the
`newBaseAdapter()` result on the next line without checking it, so the
model keeps only `urlParseRes`'s value and discards its error. -/
def newSensorEmulatorAdapter (unmarshalRes : Except String ConfigFields)
    (urlParseRes : Except String GoURL) (fetchRes : Except String VisMap) :
    Except String SensorEmulatorAdapter :=
  match unmarshalRes with
  | .error e => .error e
  | .ok f =>
      if f.sensorURL.getD "" = "" then .error "Sensor URL should be defined"
      else
        match fetchRes with
        | .error e => .error e
        | .ok data =>
            .ok { sensorURL := urlParseRes.toOption
                  updatePeriod := f.updatePeriod.getD defaultUpdatePeriod
                  store := attrNames.foldl (fun s n2 => mapInsert s n2 .null)
                      (insertAll [] data) }

/-- One tick of the `processData` loop, the per-tick fetch outcome passed
in: a fetch error is logged and the tick skipped (store unchanged); a
`setData` error is logged and the tick skipped; otherwise the store is
updated. -/
def tickStep (st : VisMap) (fetchRes : Except String VisMap) : VisMap :=
  match fetchRes with
  | .error _ => st
  | .ok data =>
      match baseSetData st data with
      | .error _ => st
      | .ok st2 => st2

/-- The `processData` loop over a finite schedule of tick outcomes.  It
is a total function: no tick outcome can make it stop early. -/
def processTicks (st : VisMap) (ticks : List (Except String VisMap)) : VisMap :=
  match ticks with
  | [] => st
  | t :: rest => processTicks (tickStep st t) rest

/-! ### Claim theorems for the adapter operations -/

/-- When every key carries the root, the loop strips all of them. -/
theorem convertLoop_ok (vis : VisMap) :
    ∀ acc : VisMap, (∀ kv ∈ vis, strHasPref kv.1 attrPref = true) →
      convertLoop vis acc
        = .ok (insertAll acc (vis.map fun kv => (strTrimPref kv.1 attrPref, kv.2))) := by
  induction vis with
  | nil => intro acc _; rfl
  | cons kv rest ih =>
      intro acc hall
      obtain ⟨k, v⟩ := kv
      rw [show convertLoop ((k, v) :: rest) acc
            = (if strHasPref k attrPref then
                convertLoop rest (mapInsert acc (strTrimPref k attrPref) v)
              else .error ("Path " ++ k ++ " does not exist")) from rfl]
      rw [if_pos (hall (k, v) (by simp))]
      rw [ih _ (fun kv2 hkv2 => hall kv2 (List.mem_cons_of_mem _ hkv2))]
      rfl

/-- When some key lacks the root, the loop fails with the source's error
for an offending key, whatever the accumulator. -/
theorem convertLoop_error (vis : VisMap) :
    ∀ acc : VisMap, (∃ kv ∈ vis, strHasPref kv.1 attrPref = false) →
      ∃ p, (∃ v, (p, v) ∈ vis) ∧ strHasPref p attrPref = false
        ∧ convertLoop vis acc = .error ("Path " ++ p ++ " does not exist") := by
  induction vis with
  | nil => intro acc h; simp at h
  | cons kv rest ih =>
      intro acc hbad
      obtain ⟨k, v⟩ := kv
      by_cases hk : strHasPref k attrPref = true
      · have hrest : ∃ kv2 ∈ rest, strHasPref kv2.1 attrPref = false := by
          rcases hbad with ⟨kv2, hkv2, hf⟩
          rcases List.mem_cons.mp hkv2 with h2 | h2
          · rw [h2] at hf; rw [hf] at hk; cases hk
          · exact ⟨kv2, h2, hf⟩
        rcases ih (mapInsert acc (strTrimPref k attrPref) v) hrest with ⟨p, ⟨v2, hv2⟩, hf, he⟩
        refine ⟨p, ⟨v2, List.mem_cons_of_mem _ hv2⟩, hf, ?_⟩
        rw [show convertLoop ((k, v) :: rest) acc
              = (if strHasPref k attrPref then
                  convertLoop rest (mapInsert acc (strTrimPref k attrPref) v)
                else .error ("Path " ++ k ++ " does not exist")) from rfl]
        rw [if_pos hk]
        exact he
      · refine ⟨k, ⟨v, by simp⟩, Bool.not_eq_true _ ▸ eq_false_of_ne_true hk, ?_⟩
        rw [show convertLoop ((k, v) :: rest) acc
              = (if strHasPref k attrPref then
                  convertLoop rest (mapInsert acc (strTrimPref k attrPref) v)
                else .error ("Path " ++ k ++ " does not exist")) from rfl]
        rw [if_neg hk]

/-- C2: if every key of the outbound map begins with
`"Attribute.Emulator."`, the conversion succeeds and each key is
replaced by its suffix after that root (kept as one flat segment); if
any key does not, the whole batch fails with the `"Path ... does not
exist"` error naming an offending key, and `SetData` returns that error
with the store untouched whatever the upstream would have answered —
nothing is sent upstream. -/
theorem convertVisFormatToData_root_check :
    (∀ visData : VisMap, (keysOf visData).Nodup →
        (∀ kv ∈ visData, strHasPref kv.1 attrPref = true) →
        convertVisFormatToData visData
          = .ok (visData.map fun kv => (strTrimPref kv.1 attrPref, kv.2)))
  ∧ (∀ visData : VisMap, (∃ kv ∈ visData, strHasPref kv.1 attrPref = false) →
        ∃ p, (∃ v, (p, v) ∈ visData) ∧ strHasPref p attrPref = false
          ∧ convertVisFormatToData visData = .error ("Path " ++ p ++ " does not exist")
          ∧ ∀ (st : VisMap) (postRes : Except String HttpResp),
              sensorSetData st postRes visData
                = (st, some ("Path " ++ p ++ " does not exist"))) := by
  constructor
  · intro visData hnd hall
    rw [convertVisFormatToData, convertLoop_ok visData [] hall]
    have hkeys : keysOf (visData.map fun kv => (strTrimPref kv.1 attrPref, kv.2))
        = (keysOf visData).map (fun k => strTrimPref k attrPref) := by
      simp [keysOf, List.map_map]
    have hmapnd : (keysOf (visData.map fun kv => (strTrimPref kv.1 attrPref, kv.2))).Nodup := by
      rw [hkeys]
      apply List.Nodup.map_on ?_ hnd
      intro x hx y hy hxy
      rcases List.mem_map.mp hx with ⟨kvx, hkvx, hxe⟩
      rcases List.mem_map.mp hy with ⟨kvy, hkvy, hye⟩
      have hpx : strHasPref x attrPref = true := hxe ▸ hall kvx hkvx
      have hpy : strHasPref y attrPref = true := hye ▸ hall kvy hkvy
      rw [strip_recover hpx, strip_recover hpy, hxy]
    rw [insertAll_of_disjoint [] _ hmapnd (fun q _ hq => by simp [keysOf] at hq)]
    simp
  · intro visData hbad
    rcases convertLoop_error visData [] hbad with ⟨p, hmem, hf, he⟩
    refine ⟨p, hmem, hf, he, ?_⟩
    intro st postRes
    rw [show sensorSetData st postRes visData
          = (match convertVisFormatToData visData with
             | .error e => (st, some e)
             | .ok _sendData =>
                match postRes with
                | .error e => (st, some e)
                | .ok res =>
                    if res.statusCode ≠ 201 then (st, some res.status)
                    else
                      match baseSetData st visData with
                      | .error e => (st, some e)
                      | .ok st2 => (st2, none)) from rfl]
    rw [show convertVisFormatToData visData = convertLoop visData [] from rfl, he]

/-- Witness for C2: a good key is stripped; a bad key fails the batch. -/
theorem convertVisFormatToData_root_check_witness :
    convertVisFormatToData [("Attribute.Emulator.stop", .jbool true)]
        = .ok [("stop", .jbool true)]
  ∧ ∃ p, (∃ v, (p, v) ∈ ([("Foo.bar", JNode.num 1)] : VisMap))
      ∧ strHasPref p attrPref = false
      ∧ convertVisFormatToData [("Foo.bar", .num 1)]
          = .error ("Path " ++ p ++ " does not exist")
      ∧ ∀ (st : VisMap) (postRes : Except String HttpResp),
          sensorSetData st postRes [("Foo.bar", .num 1)]
            = (st, some ("Path " ++ p ++ " does not exist")) := by
  constructor
  · have h := convertVisFormatToData_root_check.1 [("Attribute.Emulator.stop", .jbool true)]
      (by simp [keysOf]) (by intro kv hkv; simp at hkv; rw [hkv]; decide)
    rw [h]
    rfl
  · exact convertVisFormatToData_root_check.2 [("Foo.bar", .num 1)]
      ⟨("Foo.bar", .num 1), by simp, by decide⟩

/-- C1: `SetData` performs the upstream POST before any local commit: on
a transport error it returns that error, on any status other than 201 it
returns an error carrying the HTTP status text, and in both cases the
local store is left unmodified; the store changes only when the POST
succeeded with 201, and then only through the base adapter's `setData`. -/
theorem setData_upstream_before_commit (st : VisMap) (postRes : Except String HttpResp)
    (data : VisMap) :
    (∀ (e : String) (sd : VisMap), convertVisFormatToData data = .ok sd →
        postRes = .error e → sensorSetData st postRes data = (st, some e))
  ∧ (∀ (r : HttpResp) (sd : VisMap), convertVisFormatToData data = .ok sd →
        postRes = .ok r → r.statusCode ≠ 201 →
        sensorSetData st postRes data = (st, some r.status))
  ∧ ((sensorSetData st postRes data).1 ≠ st →
        ∃ (r : HttpResp) (sd : VisMap), convertVisFormatToData data = .ok sd
          ∧ postRes = .ok r ∧ r.statusCode = 201
          ∧ baseSetData st data = .ok (sensorSetData st postRes data).1)
  ∧ ((sensorSetData st postRes data).2 = none →
        ∃ r : HttpResp, postRes = .ok r ∧ r.statusCode = 201
          ∧ baseSetData st data = .ok (sensorSetData st postRes data).1) := by
  refine ⟨?_, ?_, ?_, ?_⟩
  · intro e sd hc hp
    simp [sensorSetData, hc, hp]
  · intro r sd hc hp hr
    simp [sensorSetData, hc, hp, hr]
  · intro hne
    cases hc : convertVisFormatToData data with
    | error e => exact absurd (by simp [sensorSetData, hc]) hne
    | ok sd =>
        cases hp : postRes with
        | error e => exact absurd (by simp [sensorSetData, hc, hp]) hne
        | ok r =>
            by_cases hr : r.statusCode = 201
            · cases hb : baseSetData st data with
              | error e => exact absurd (by simp [sensorSetData, hc, hp, hr, hb]) hne
              | ok st2 =>
                  exact ⟨r, sd, rfl, rfl, hr, by simp [sensorSetData, hc, hp, hr, hb]⟩
            · exact absurd (by simp [sensorSetData, hc, hp, hr]) hne
  · intro hnone
    cases hc : convertVisFormatToData data with
    | error e => rw [show (sensorSetData st postRes data).2
          = some e from by simp [sensorSetData, hc]] at hnone; cases hnone
    | ok sd =>
        cases hp : postRes with
        | error e => rw [show (sensorSetData st postRes data).2
              = some e from by simp [sensorSetData, hc, hp]] at hnone; cases hnone
        | ok r =>
            by_cases hr : r.statusCode = 201
            · cases hb : baseSetData st data with
              | error e => rw [show (sensorSetData st postRes data).2
                    = some e from by simp [sensorSetData, hc, hp, hr, hb]] at hnone
                           cases hnone
              | ok st2 =>
                  exact ⟨r, rfl, hr, by simp [sensorSetData, hc, hp, hr, hb]⟩
            · rw [show (sensorSetData st postRes data).2
                  = some r.status from by simp [sensorSetData, hc, hp, hr]] at hnone
              cases hnone

/-- Witness for C1: a 404 answer leaves the store untouched and surfaces
the status text. -/
theorem setData_upstream_before_commit_witness :
    sensorSetData [("Attribute.Emulator.stop", JNode.null)]
        (.ok { statusCode := 404, status := "404 Not Found" })
        [("Attribute.Emulator.stop", .jbool true)]
      = ([("Attribute.Emulator.stop", JNode.null)], some "404 Not Found") :=
  (setData_upstream_before_commit [("Attribute.Emulator.stop", JNode.null)]
      (.ok { statusCode := 404, status := "404 Not Found" })
      [("Attribute.Emulator.stop", .jbool true)]).2.1
    { statusCode := 404, status := "404 Not Found" } [("stop", .jbool true)] rfl rfl
    (by decide)

/-- C5 (the dropped `url.Parse` error): construction does fail on a
`json.Unmarshal` error and on a missing `SensorURL`; but when
`url.Parse(cfg.SensorURL)` fails, its error is overwritten unchecked by
the `newBaseAdapter()` assignment on the next source line, and
construction succeeds anyway (once the initial fetch does) with a `nil`
`sensorURL` — contradicting the claim that a malformed `SensorURL` value
fails construction. -/
theorem newSensorEmulatorAdapter_url_error_discarded :
    newSensorEmulatorAdapter
        (.ok { sensorURL := some "http://[::1]:namedport", updatePeriod := none })
        (.error "parse http://[::1]:namedport: invalid port :namedport after host")
        (.ok [])
      = .ok { sensorURL := none, updatePeriod := 500,
              store := attrNames.foldl (fun s n2 => mapInsert s n2 .null) [] }
  ∧ (∀ e : String, newSensorEmulatorAdapter (.error e)
        (.ok { raw := "" }) (.ok []) = .error e)
  ∧ newSensorEmulatorAdapter (.ok { sensorURL := none, updatePeriod := none })
        (.ok { raw := "" }) (.ok [])
      = .error "Sensor URL should be defined" :=
  ⟨rfl, fun _ => rfl, rfl⟩

/-- C6: the refresh loop never stops because of a failed tick: a fetch
error leaves the store unchanged and the loop moves to the next tick, a
`setData` error likewise, and after any tick whatsoever (failed or not)
the loop continues with the remaining schedule. -/
theorem processData_error_isolation :
    (∀ (st : VisMap) (e : String), tickStep st (.error e) = st)
  ∧ (∀ (st d : VisMap) (e : String), baseSetData st d = .error e → tickStep st (.ok d) = st)
  ∧ (∀ (st : VisMap) (t : Except String VisMap) (rest : List (Except String VisMap)),
      processTicks st (t :: rest) = processTicks (tickStep st t) rest) := by
  refine ⟨fun _ _ => rfl, ?_, fun _ _ _ => rfl⟩
  intro st d e hb
  simp [tickStep, hb]

/-- Witness for C6: a tick whose fetched data names an unknown path is
skipped, and the loop then processes the rest of the schedule. -/
theorem processData_error_isolation_witness :
    tickStep [] (.ok [("x", JNode.null)]) = []
  ∧ processTicks [] [.error "connection refused", .ok [("x", JNode.null)]] = [] := by
  constructor
  · exact processData_error_isolation.2.1 [] [("x", JNode.null)] "path x not found" rfl
  · rw [processData_error_isolation.2.2 [] (.error "connection refused")
        [.ok [("x", JNode.null)]]]
    rw [processData_error_isolation.1 [] "connection refused"]
    rw [processData_error_isolation.2.2 [] (.ok [("x", JNode.null)]) []]
    rw [processData_error_isolation.2.1 [] [("x", JNode.null)] "path x not found" rfl]
    rfl

/-- C7: `IsPathPublic` answers `true` with no error for every path (the
source carries a TODO to flip this once authorization is integrated). -/
theorem isPathPublic_always_true : ∀ path : String, isPathPublic path = (true, none) :=
  fun _ => rfl

/-- C8: when the configuration omits `UpdatePeriod`, the adapter's poll
interval is `defaultUpdatePeriod = 500` (milliseconds — `processData`
multiplies it by `time.Millisecond`); when present, the configured value
is used. -/
theorem updatePeriod_default_500 (su : String) (hsu : su ≠ "") (upd : Option Nat)
    (urlParseRes : Except String GoURL) (data : VisMap) :
    ∃ a, newSensorEmulatorAdapter (.ok { sensorURL := some su, updatePeriod := upd })
          urlParseRes (.ok data) = .ok a
      ∧ a.updatePeriod = upd.getD defaultUpdatePeriod
      ∧ defaultUpdatePeriod = 500 := by
  have heq : newSensorEmulatorAdapter (.ok { sensorURL := some su, updatePeriod := upd })
      urlParseRes (.ok data)
      = .ok { sensorURL := urlParseRes.toOption
              updatePeriod := upd.getD defaultUpdatePeriod
              store := attrNames.foldl (fun s n2 => mapInsert s n2 .null)
                  (insertAll [] data) } := by
    simp only [newSensorEmulatorAdapter, Option.getD_some]
    rw [if_neg hsu]
  exact ⟨_, heq, rfl, rfl⟩

/-- Witness for C8: a configuration without `UpdatePeriod` polls at 500. -/
theorem updatePeriod_default_500_witness :
    ∃ a, newSensorEmulatorAdapter
          (.ok { sensorURL := some "http://sensors:8800", updatePeriod := none })
          (.ok { raw := "http://sensors:8800" }) (.ok []) = .ok a
      ∧ a.updatePeriod = (none : Option Nat).getD defaultUpdatePeriod
      ∧ defaultUpdatePeriod = 500 :=
  updatePeriod_default_500 "http://sensors:8800" (by decide) none
    (.ok { raw := "http://sensors:8800" }) []
